import Mathlib

/-!
Verification of the token-classification alignment and metric post-processing
logic from the repository's token-classification notebook
(`align_labels_with_tokens`, `postprocess`, and the decoding comprehensions of
`compute_metrics`).

The Python code is shallowly embedded: Python integers become `Int`, the
word-id map entries (`None` or an index) become `Option Nat`, and code that can
raise (list indexing) returns `Option`.  Python list indexing wraps negative
indices, which the embedding models faithfully.
-/

namespace TokenClassification

/-- The ignore sentinel `-100` used for special tokens and padding. -/
def IGNORE : Int := -100

/-- Embedding of `align_labels_with_tokens(labels, word_ids)`, with the loop
over `word_ids` as structural recursion and the mutable `current_word` as the
parameter `cur` (initially `None`).  `labels[word_id]` can raise `IndexError`,
hence the `Option` result. -/
def alignGo (labels : List Int) (cur : Option Nat) : List (Option Nat) → Option (List Int)
  | [] => some []
  | wid :: rest =>
    if wid ≠ cur then
      -- Start of a new word: current_word := word_id
      match wid with
      | none =>
        match alignGo labels wid rest with
        | none => none
        | some t => some (IGNORE :: t)
      | some w =>
        match labels[w]? with
        | none => none
        | some lab =>
          match alignGo labels wid rest with
          | none => none
          | some t => some (lab :: t)
    else
      match wid with
      | none =>
        -- Special token
        match alignGo labels cur rest with
        | none => none
        | some t => some (IGNORE :: t)
      | some w =>
        -- Same word as previous token: B-XXX becomes I-XXX
        match labels[w]? with
        | none => none
        | some lab =>
          match alignGo labels cur rest with
          | none => none
          | some t => some ((if lab % 2 = 1 then lab + 1 else lab) :: t)

/-- `align_labels_with_tokens` starts with `current_word = None`. -/
def align_labels_with_tokens (labels : List Int) (word_ids : List (Option Nat)) :
    Option (List Int) :=
  alignGo labels none word_ids

/-- The value the alignment loop emits at one position, as a function of the
previously processed word-id `cur` and the current word-id `wid` (total,
reading labels with a default; coincides with the loop whenever indexing
succeeds). -/
def emit (labels : List Int) (cur wid : Option Nat) : Int :=
  match wid with
  | none => IGNORE
  | some w =>
    if wid = cur then
      (if labels.getD w 0 % 2 = 1 then labels.getD w 0 + 1 else labels.getD w 0)
    else labels.getD w 0

/-- Python list indexing `names[i]` for a possibly negative integer index:
negative indices wrap by adding the length; out-of-range raises (here `none`). -/
def pyIndex (names : List String) (i : Int) : Option String :=
  if 0 ≤ (if i < 0 then i + names.length else i) then
    names[(if i < 0 then i + names.length else i).toNat]?
  else none

/-- A Python list comprehension `[f(x) for x in xs]` over a body that can
raise: the first raising element aborts the whole comprehension. -/
def pyMap (f : α → Option β) : List α → Option (List β)
  | [] => some []
  | a :: rest =>
    match f a with
    | none => none
    | some b =>
      match pyMap f rest with
      | none => none
      | some t => some (b :: t)

/-- Embedding of `[label_names[l] for l in label if l != -100]`. -/
def trueLabelsRow (names : List String) (label : List Int) : Option (List String) :=
  pyMap (fun l => pyIndex names l) (label.filter (fun l => l ≠ IGNORE))

/-- Embedding of `[label_names[p] for (p, l) in zip(prediction, label) if l != -100]`. -/
def truePredictionsRow (names : List String) (prediction label : List Int) :
    Option (List String) :=
  pyMap (fun q => pyIndex names q.1) ((prediction.zip label).filter (fun q => q.2 ≠ IGNORE))

/-- Embedding of `postprocess(predictions, labels)` (after the tensor-to-array
conversion, which is out of scope): the two comprehensions build `true_labels`
from every labels row and `true_predictions` from `zip(predictions, labels)`. -/
def postprocess (names : List String) (predictions labels : List (List Int)) :
    Option (List (List String) × List (List String)) :=
  match pyMap (fun label => trueLabelsRow names label) labels with
  | none => none
  | some tl =>
    match pyMap (fun q => truePredictionsRow names q.1 q.2) (predictions.zip labels) with
    | none => none
    | some tp => some (tl, tp)

/-- Embedding of the decoding step inside `compute_metrics` (the two
comprehensions computing `true_labels` and `true_predictions` from the integer
arrays), transcribed independently of `postprocess`. -/
def compute_metrics_decode (names : List String) (predictions labels : List (List Int)) :
    Option (List (List String) × List (List String)) :=
  match pyMap (fun label =>
      pyMap (fun l => pyIndex names l) (label.filter (fun l => l ≠ IGNORE))) labels with
  | none => none
  | some tl =>
    match pyMap (fun q =>
        pyMap (fun r => pyIndex names r.1)
          ((q.1.zip q.2).filter (fun r => r.2 ≠ IGNORE))) (predictions.zip labels) with
    | none => none
    | some tp => some (tl, tp)

/-- The label-name table of the CoNLL-2003 dataset used by the notebook
(`label_names = ner_feature.feature.names`). -/
def label_names : List String :=
  ["O", "B-PER", "I-PER", "B-ORG", "I-ORG", "B-LOC", "I-LOC", "B-MISC", "I-MISC"]

/-! ### Step equations for the alignment loop -/

theorem alignGo_nil (labels : List Int) (cur : Option Nat) :
    alignGo labels cur [] = some [] := rfl

theorem alignGo_cons_none (labels : List Int) (cur : Option Nat)
    (rest : List (Option Nat)) :
    alignGo labels cur (none :: rest) =
      match alignGo labels none rest with
      | none => none
      | some t => some (IGNORE :: t) := by
  by_cases hc : (none : Option Nat) = cur
  · subst hc; rw [alignGo]; simp
  · rw [alignGo]; rw [if_pos hc]

theorem alignGo_cons_new (labels : List Int) (cur : Option Nat) (w : Nat)
    (rest : List (Option Nat)) (hne : some w ≠ cur) :
    alignGo labels cur (some w :: rest) =
      match labels[w]? with
      | none => none
      | some lab =>
        match alignGo labels (some w) rest with
        | none => none
        | some t => some (lab :: t) := by
  rw [alignGo]; rw [if_pos hne]

theorem alignGo_cons_same (labels : List Int) (w : Nat) (rest : List (Option Nat)) :
    alignGo labels (some w) (some w :: rest) =
      match labels[w]? with
      | none => none
      | some lab =>
        match alignGo labels (some w) rest with
        | none => none
        | some t => some ((if lab % 2 = 1 then lab + 1 else lab) :: t) := by
  rw [alignGo]; simp

/-- Uniform cons step: whatever the previous word-id, processing one word-id
prepends `emit labels cur wid` (when indexing succeeds) and continues with
`cur := wid`. -/
theorem alignGo_cons (labels : List Int) (cur wid : Option Nat)
    (rest : List (Option Nat))
    (hv : ∀ w : Nat, wid = some w → w < labels.length) :
    alignGo labels cur (wid :: rest) =
      match alignGo labels wid rest with
      | none => none
      | some t => some (emit labels cur wid :: t) := by
  cases wid with
  | none => rw [alignGo_cons_none]; rfl
  | some w =>
    have hw : w < labels.length := hv w rfl
    have hl : labels[w]? = some (labels.getD w 0) := by
      rw [List.getElem?_eq_getElem hw]
      exact congrArg some (List.getD_eq_getElem labels 0 hw).symm
    by_cases hc : some w = cur
    · subst hc
      rw [alignGo_cons_same, hl]
      simp [emit]
    · rw [alignGo_cons_new labels cur w rest hc, hl]
      simp [emit, hc]

theorem emit_marker (labels : List Int) (cur : Option Nat) :
    emit labels cur none = IGNORE := rfl

theorem emit_new (labels : List Int) (cur : Option Nat) (w : Nat) (h : some w ≠ cur) :
    emit labels cur (some w) = labels.getD w 0 := by
  simp [emit, h]

theorem emit_same (labels : List Int) (w : Nat) :
    emit labels (some w) (some w) =
      (if labels.getD w 0 % 2 = 1 then labels.getD w 0 + 1 else labels.getD w 0) := by
  simp [emit]

/-- Inversion of one loop step: a successful run on `wid :: rest` emits
`emit labels cur wid` and continues successfully with `cur := wid`; a word-id
`some w` moreover certifies `w < labels.length`. -/
theorem alignGo_cons_inv (labels : List Int) (cur wid : Option Nat)
    (rest : List (Option Nat)) (out : List Int)
    (h : alignGo labels cur (wid :: rest) = some out) :
    ∃ t, alignGo labels wid rest = some t ∧ out = emit labels cur wid :: t ∧
      (∀ w : Nat, wid = some w → w < labels.length) := by
  cases wid with
  | none =>
    rw [alignGo_cons_none] at h
    cases hrec : alignGo labels none rest with
    | none => rw [hrec] at h; simp at h
    | some t =>
      rw [hrec] at h
      simp only [Option.some.injEq] at h
      exact ⟨t, rfl, by rw [← h, emit_marker], by intro w hw; cases hw⟩
  | some w =>
    by_cases hc : some w = cur
    · subst hc
      rw [alignGo_cons_same] at h
      cases hl : labels[w]? with
      | none => rw [hl] at h; simp at h
      | some lab =>
        rw [hl] at h
        have hw : w < labels.length := by
          by_contra hcon
          rw [List.getElem?_eq_none (Nat.le_of_not_lt hcon)] at hl
          cases hl
        have hlab : labels.getD w 0 = lab := by
          rw [List.getD_eq_getElem labels 0 hw]
          rw [List.getElem?_eq_getElem hw] at hl
          exact Option.some.inj hl
        cases hrec : alignGo labels (some w) rest with
        | none => rw [hrec] at h; simp at h
        | some t =>
          rw [hrec] at h
          simp only [Option.some.injEq] at h
          refine ⟨t, rfl, ?_, by intro v hv; cases hv; exact hw⟩
          rw [← h, emit_same, hlab]
    · rw [alignGo_cons_new labels cur w rest hc] at h
      cases hl : labels[w]? with
      | none => rw [hl] at h; simp at h
      | some lab =>
        rw [hl] at h
        have hw : w < labels.length := by
          by_contra hcon
          rw [List.getElem?_eq_none (Nat.le_of_not_lt hcon)] at hl
          cases hl
        have hlab : labels.getD w 0 = lab := by
          rw [List.getD_eq_getElem labels 0 hw]
          rw [List.getElem?_eq_getElem hw] at hl
          exact Option.some.inj hl
        cases hrec : alignGo labels (some w) rest with
        | none => rw [hrec] at h; simp at h
        | some t =>
          rw [hrec] at h
          simp only [Option.some.injEq] at h
          refine ⟨t, rfl, ?_, by intro v hv; cases hv; exact hw⟩
          rw [← h, emit_new labels cur w hc, hlab]

/-! ### Length, totality, and the positional formula -/

theorem alignGo_length (labels : List Int) (wids : List (Option Nat)) :
    ∀ (cur : Option Nat) (out : List Int),
      alignGo labels cur wids = some out → out.length = wids.length := by
  induction wids with
  | nil => intro cur out h; rw [alignGo_nil] at h; simp only [Option.some.injEq] at h; simp [← h]
  | cons wid rest ih =>
    intro cur out h
    cases wid with
    | none =>
      rw [alignGo_cons_none] at h
      cases hrec : alignGo labels none rest with
      | none => rw [hrec] at h; simp at h
      | some t =>
        rw [hrec] at h
        simp only [Option.some.injEq] at h
        subst h
        simp [ih _ _ hrec]
    | some w =>
      by_cases hc : some w = cur
      · subst hc
        rw [alignGo_cons_same] at h
        cases hl : labels[w]? with
        | none => rw [hl] at h; simp at h
        | some lab =>
          rw [hl] at h
          cases hrec : alignGo labels (some w) rest with
          | none => rw [hrec] at h; simp at h
          | some t =>
            rw [hrec] at h
            simp only [Option.some.injEq] at h
            subst h
            simp [ih _ _ hrec]
      · rw [alignGo_cons_new labels cur w rest hc] at h
        cases hl : labels[w]? with
        | none => rw [hl] at h; simp at h
        | some lab =>
          rw [hl] at h
          cases hrec : alignGo labels (some w) rest with
          | none => rw [hrec] at h; simp at h
          | some t =>
            rw [hrec] at h
            simp only [Option.some.injEq] at h
            subst h
            simp [ih _ _ hrec]

theorem alignGo_total (labels : List Int) (wids : List (Option Nat))
    (hv : ∀ w : Nat, some w ∈ wids → w < labels.length) :
    ∀ cur : Option Nat, ∃ out, alignGo labels cur wids = some out := by
  induction wids with
  | nil => intro cur; exact ⟨[], alignGo_nil labels cur⟩
  | cons wid rest ih =>
    intro cur
    have hv1 : ∀ w : Nat, wid = some w → w < labels.length := by
      intro w hw; exact hv w (hw ▸ List.mem_cons_self wid rest)
    have hvrest : ∀ w : Nat, some w ∈ rest → w < labels.length := by
      intro w hw; exact hv w (List.mem_cons_of_mem wid hw)
    obtain ⟨t, ht⟩ := ih hvrest wid
    refine ⟨emit labels cur wid :: t, ?_⟩
    rw [alignGo_cons labels cur wid rest hv1, ht]

/-- Positional formula: at every position `i`, a successful run emits exactly
`emit labels prev widsᵢ`, where `prev` is the word-id at `i - 1` (the initial
`cur` at position 0).  The output is local to positions `i - 1` and `i`. -/
theorem alignGo_getElem (labels : List Int) (wids : List (Option Nat)) :
    ∀ (cur : Option Nat) (out : List Int), alignGo labels cur wids = some out →
    ∀ i : Nat, i < wids.length →
      out[i]? = some (emit labels (if i = 0 then cur else wids.getD (i - 1) none)
        (wids.getD i none)) := by
  induction wids with
  | nil => intro cur out h i hi; simp at hi
  | cons wid rest ih =>
    intro cur out h i hi
    obtain ⟨t, hrec, hout, -⟩ := alignGo_cons_inv labels cur wid rest out h
    subst hout
    cases i with
    | zero => simp [List.getD_cons_zero]
    | succ j =>
      have hj : j < rest.length := by simpa using hi
      have hih := ih wid t hrec j hj
      rw [List.getElem?_cons_succ, hih]
      congr 1
      cases j with
      | zero => simp [List.getD_cons_zero, List.getD_cons_succ]
      | succ k => simp [List.getD_cons_succ]

/-! ### Claim theorems for the alignment function -/

/-- C2: for every label sequence and every word-id map whose non-marker
entries are valid indices into the labels, `align_labels_with_tokens` returns
without error a sequence of exactly the same length as the word-id map, whose
value at every marker position is the ignore sentinel `-100` and whose value
at every other position is the word's label or, when that label is odd, that
label plus one; empty inputs yield the empty output. -/
theorem align_output_contract (labels : List Int) (word_ids : List (Option Nat))
    (hv : ∀ w : Nat, some w ∈ word_ids → w < labels.length) :
    (∃ out, align_labels_with_tokens labels word_ids = some out ∧
      out.length = word_ids.length ∧
      (∀ i : Nat, i < word_ids.length → word_ids.getD i none = none →
        out[i]? = some IGNORE) ∧
      (∀ i w : Nat, i < word_ids.length → word_ids.getD i none = some w →
        out[i]? = some (labels.getD w 0) ∨
          (labels.getD w 0 % 2 = 1 ∧ out[i]? = some (labels.getD w 0 + 1)))) ∧
    align_labels_with_tokens labels [] = some [] := by
  constructor
  · obtain ⟨out, hout⟩ := alignGo_total labels word_ids hv none
    refine ⟨out, hout, alignGo_length labels word_ids none out hout, ?_, ?_⟩
    · intro i hi hmark
      have hig := alignGo_getElem labels word_ids none out hout i hi
      rw [hmark] at hig
      rw [hig, emit_marker]
    · intro i w hi hw
      have hig := alignGo_getElem labels word_ids none out hout i hi
      rw [hw] at hig
      by_cases hc :
          some w = (if i = 0 then (none : Option Nat) else word_ids.getD (i - 1) none)
      · by_cases hodd : labels.getD w 0 % 2 = 1
        · right
          refine ⟨hodd, ?_⟩
          rw [hig, ← hc, emit_same, if_pos hodd]
        · left
          rw [hig, ← hc, emit_same, if_neg hodd]
      · left
        rw [hig, emit_new labels _ w hc]
  · rfl

/-- C4: aligning a label sequence against the one-token-per-word word-id map
`[0, 1, ..., len - 1]` reproduces the label sequence unchanged. -/
theorem align_one_token_per_word_identity (L : List Int) :
    align_labels_with_tokens L ((List.range L.length).map some) = some L := by
  have hv : ∀ w : Nat, some w ∈ (List.range L.length).map some → w < L.length := by
    intro w hw
    simp only [List.mem_map, List.mem_range, Option.some.injEq] at hw
    obtain ⟨a, ha, rfl⟩ := hw
    exact ha
  obtain ⟨out, hout⟩ := alignGo_total L ((List.range L.length).map some) hv none
  have hlen : out.length = L.length := by
    have := alignGo_length L ((List.range L.length).map some) none out hout
    simpa using this
  rw [align_labels_with_tokens, hout]
  congr 1
  apply List.ext_getElem?
  intro i
  by_cases hi : i < L.length
  · have hig := alignGo_getElem L ((List.range L.length).map some) none out hout i
      (by simpa using hi)
    have hwi : ((List.range L.length).map some).getD i none = some i := by
      rw [List.getD_eq_getElem?_getD]
      simp [List.getElem?_range, hi]
    rw [hwi] at hig
    have hprev :
        some i ≠ (if i = 0 then (none : Option Nat)
          else ((List.range L.length).map some).getD (i - 1) none) := by
      cases i with
      | zero => simp
      | succ j =>
        have hj : j < L.length := Nat.lt_of_succ_lt hi
        rw [if_neg (Nat.succ_ne_zero j)]
        rw [Nat.succ_sub_one, List.getD_eq_getElem?_getD]
        simp [List.getElem?_range, hj]
    rw [emit_new L _ i hprev] at hig
    rw [hig, List.getD_eq_getElem L 0 hi, List.getElem?_eq_getElem hi]
  · have hge : L.length ≤ i := Nat.le_of_not_lt hi
    rw [List.getElem?_eq_none (by rw [hlen]; exact hge),
      List.getElem?_eq_none hge]

/-- Helper: the word-id at each position of a run of `k` copies of `some w`
placed between `pre` and `post`. -/
theorem run_getD (pre post : List (Option Nat)) (w k j : Nat) (hj : j < k) :
    (pre ++ List.replicate k (some w) ++ post).getD (pre.length + j) none = some w := by
  rw [List.getD_eq_getElem?_getD, List.append_assoc]
  rw [List.getElem?_append_right (Nat.le_add_right pre.length j)]
  rw [Nat.add_sub_cancel_left]
  rw [List.getElem?_append]
  rw [if_pos (by simpa using hj)]
  simp [List.getElem?_replicate, hj]

/-- Helper: full characterization of the output on a run of `k` tokens of one
word `w`, the entry before the run (if any) being a different word-id or the
marker: the first token gets the word's label unchanged, every later token of
the run gets the label with odd codes bumped by one. -/
theorem align_run_core (labels : List Int) (pre post : List (Option Nat))
    (w k : Nat) (hw : w < labels.length)
    (hpre : pre.getLastD none ≠ some w)
    (hvpre : ∀ v : Nat, some v ∈ pre → v < labels.length)
    (hvpost : ∀ v : Nat, some v ∈ post → v < labels.length) :
    ∃ out, align_labels_with_tokens labels
        (pre ++ List.replicate k (some w) ++ post) = some out ∧
      ∀ j : Nat, j < k → out[pre.length + j]? =
        some (if j = 0 then labels.getD w 0
          else if labels.getD w 0 % 2 = 1 then labels.getD w 0 + 1
          else labels.getD w 0) := by
  have hv : ∀ v : Nat, some v ∈ pre ++ List.replicate k (some w) ++ post →
      v < labels.length := by
    intro v hv
    rw [List.append_assoc] at hv
    rcases List.mem_append.1 hv with h | h
    · exact hvpre v h
    · rcases List.mem_append.1 h with h2 | h2
      · have := List.eq_of_mem_replicate h2
        cases this
        exact hw
      · exact hvpost v h2
  obtain ⟨out, hout⟩ :=
    alignGo_total labels (pre ++ List.replicate k (some w) ++ post) hv none
  refine ⟨out, hout, ?_⟩
  intro j hj
  have hi : pre.length + j <
      (pre ++ List.replicate k (some w) ++ post).length := by
    simp only [List.length_append, List.length_replicate]
    omega
  have hig := alignGo_getElem labels (pre ++ List.replicate k (some w) ++ post)
    none out hout (pre.length + j) hi
  rw [run_getD pre post w k j hj] at hig
  cases j with
  | zero =>
    have hprev : some w ≠ (if pre.length + 0 = 0 then (none : Option Nat)
        else (pre ++ List.replicate k (some w) ++ post).getD (pre.length + 0 - 1) none) := by
      by_cases hp : pre.length + 0 = 0
      · rw [if_pos hp]; simp
      · rw [if_neg hp]
        have hpl : 0 < pre.length := by omega
        have hplt : pre.length + 0 - 1 < pre.length := by omega
        rw [List.getD_eq_getElem?_getD, List.append_assoc, List.getElem?_append]
        rw [if_pos hplt]
        have hlast : pre.getLastD none = (pre[pre.length + 0 - 1]?).getD none := by
          rw [List.getLastD_eq_getLast?, List.getLast?_eq_getElem?]
          congr 1
        rw [← hlast]
        exact fun hc => hpre hc.symm
    rw [emit_new labels _ w hprev] at hig
    rw [hig, if_pos rfl]
  | succ m =>
    have hprev2 : (if pre.length + (m + 1) = 0 then (none : Option Nat)
        else (pre ++ List.replicate k (some w) ++ post).getD (pre.length + (m + 1) - 1) none)
        = some w := by
      rw [if_neg (by omega)]
      have harith : pre.length + (m + 1) - 1 = pre.length + m := by omega
      rw [harith]
      exact run_getD pre post w k m (by omega)
    rw [hprev2, emit_same] at hig
    rw [hig, if_neg (Nat.succ_ne_zero m)]

/-- C1: a word `w` with label code `c` occupying `k ≥ 1` consecutive positions
of the word-id map (the entry immediately before the run, if any, being a
different word-id or the marker) is aligned at those `k` positions to exactly
`[c, c', c', ...]`, where `c' = c + 1` when `c` is odd and `c' = c`
otherwise. -/
theorem align_run_of_split_word (labels : List Int) (pre post : List (Option Nat))
    (w k : Nat) (c : Int) (hw : w < labels.length) (hc : c = labels.getD w 0)
    (_hk : 1 ≤ k)
    (hpre : pre.getLastD none ≠ some w)
    (hvpre : ∀ v : Nat, some v ∈ pre → v < labels.length)
    (hvpost : ∀ v : Nat, some v ∈ post → v < labels.length) :
    ∃ out, align_labels_with_tokens labels
        (pre ++ List.replicate k (some w) ++ post) = some out ∧
      ∀ j : Nat, j < k → out[pre.length + j]? =
        some (if j = 0 then c else if c % 2 = 1 then c + 1 else c) := by
  obtain ⟨out, hout, hseg⟩ :=
    align_run_core labels pre post w k hw hpre hvpre hvpost
  subst hc
  exact ⟨out, hout, hseg⟩

/-- C6: on a run of `N ≥ 1` tokens of one word, the aligned output has exactly
one leading label — the word's original label, unchanged — at the run's first
token, and every one of the `N - 1` later tokens carries an even
(inside/continuation) code, so at most one odd beginning-of-span code is
emitted per word, and only at the word's first token. -/
theorem align_single_beginning_per_word (labels : List Int)
    (pre post : List (Option Nat)) (w k : Nat) (hw : w < labels.length)
    (hk : 1 ≤ k)
    (hpre : pre.getLastD none ≠ some w)
    (hvpre : ∀ v : Nat, some v ∈ pre → v < labels.length)
    (hvpost : ∀ v : Nat, some v ∈ post → v < labels.length) :
    ∃ out, align_labels_with_tokens labels
        (pre ++ List.replicate k (some w) ++ post) = some out ∧
      out[pre.length]? = some (labels.getD w 0) ∧
      ∀ j : Nat, 1 ≤ j → j < k →
        ∃ c : Int, out[pre.length + j]? = some c ∧ c % 2 = 0 := by
  obtain ⟨out, hout, hseg⟩ :=
    align_run_core labels pre post w k hw hpre hvpre hvpost
  refine ⟨out, hout, ?_, ?_⟩
  · have h0 := hseg 0 (by omega)
    rw [if_pos rfl] at h0
    simpa using h0
  · intro j hj1 hjk
    have hjseg := hseg j hjk
    rw [if_neg (by omega)] at hjseg
    refine ⟨if labels.getD w 0 % 2 = 1 then labels.getD w 0 + 1 else labels.getD w 0,
      hjseg, ?_⟩
    by_cases hodd : labels.getD w 0 % 2 = 1
    · rw [if_pos hodd]; omega
    · rw [if_neg hodd]; omega

/-- C10: the aligned label at position `i` depends only on the word-level
labels and the word-id entries at positions `i - 1` and `i` (position 0
behaving as if preceded by the marker); consequently a word-id reappearing
after a different word-id or a marker is treated as a fresh word and receives
the word's original label again. -/
theorem align_locality :
    (∀ (labels : List Int) (w1 w2 : List (Option Nat)) (o1 o2 : List Int) (i : Nat),
      align_labels_with_tokens labels w1 = some o1 →
      align_labels_with_tokens labels w2 = some o2 →
      i < w1.length → i < w2.length →
      w1.getD i none = w2.getD i none →
      (i = 0 ∨ w1.getD (i - 1) none = w2.getD (i - 1) none) →
      o1[i]? = o2[i]?) ∧
    (∀ (labels : List Int) (wids : List (Option Nat)) (out : List Int) (i w : Nat),
      align_labels_with_tokens labels wids = some out →
      i < wids.length → wids.getD i none = some w →
      (i = 0 ∨ wids.getD (i - 1) none ≠ some w) →
      out[i]? = some (labels.getD w 0)) := by
  constructor
  · intro labels w1 w2 o1 o2 i h1 h2 hi1 hi2 hagree hdisj
    have hig1 := alignGo_getElem labels w1 none o1 h1 i hi1
    have hig2 := alignGo_getElem labels w2 none o2 h2 i hi2
    rw [hig1, hig2, hagree]
    rcases hdisj with h0 | hprev
    · rw [if_pos h0, if_pos h0]
    · by_cases h0 : i = 0
      · rw [if_pos h0, if_pos h0]
      · rw [if_neg h0, if_neg h0, hprev]
  · intro labels wids out i w hout hi hwi hdisj
    have hig := alignGo_getElem labels wids none out hout i hi
    rw [hwi] at hig
    by_cases h0 : i = 0
    · rw [if_pos h0] at hig
      rw [emit_new labels none w (by simp)] at hig
      exact hig
    · rcases hdisj with h | hprev
      · exact absurd h h0
      · rw [if_neg h0] at hig
        rw [emit_new labels _ w (fun hc => hprev hc.symm)] at hig
        exact hig

/-! ### Lemmas about the embedded comprehensions and Python indexing -/

theorem pyMap_nil (f : α → Option β) : pyMap f [] = some [] := rfl

theorem pyMap_cons (f : α → Option β) (a : α) (rest : List α) :
    pyMap f (a :: rest) =
      match f a with
      | none => none
      | some b =>
        match pyMap f rest with
        | none => none
        | some t => some (b :: t) := rfl

theorem pyMap_eq_map (f : α → Option β) (g : α → β) (xs : List α)
    (h : ∀ a ∈ xs, f a = some (g a)) : pyMap f xs = some (xs.map g) := by
  induction xs with
  | nil => rfl
  | cons a rest ih =>
    rw [pyMap_cons, h a (List.mem_cons_self a rest),
      ih (fun b hb => h b (List.mem_cons_of_mem a hb))]
    rfl

theorem pyMap_eq_none (f : α → Option β) (xs : List α) (a : α) (ha : a ∈ xs)
    (hfa : f a = none) : pyMap f xs = none := by
  induction xs with
  | nil => cases ha
  | cons b rest ih =>
    rw [pyMap_cons]
    rcases List.mem_cons.1 ha with rfl | hmem
    · rw [hfa]
    · cases hfb : f b with
      | none => rfl
      | some v => rw [ih hmem]

theorem pyIndex_valid (names : List String) (l : Int) (h0 : 0 ≤ l)
    (hlt : l < (names.length : Int)) :
    pyIndex names l = some (names.getD l.toNat "") := by
  have hneg : ¬ l < 0 := by omega
  have hlt2 : l.toNat < names.length := by omega
  rw [pyIndex, if_neg hneg, if_pos h0, List.getElem?_eq_getElem hlt2,
    List.getD_eq_getElem names "" hlt2]

/-- Python indexing raises for an index at or beyond the length, or below
minus the length. -/
theorem pyIndex_out_of_range (names : List String) (l : Int)
    (h : (names.length : Int) ≤ l ∨ l + names.length < 0) :
    pyIndex names l = none := by
  rcases h with h | h
  · have hneg : ¬ l < 0 := by omega
    rw [pyIndex, if_neg hneg, if_pos (by omega : (0:Int) ≤ l)]
    exact List.getElem?_eq_none (by omega)
  · have hneg : l < 0 := by omega
    rw [pyIndex, if_pos hneg, if_neg (by omega)]

/-- Python indexing silently wraps a negative index within range. -/
theorem pyIndex_negative_wraps (names : List String) (l : Int) (hneg : l < 0)
    (hin : 0 ≤ l + names.length) :
    pyIndex names l = names[(l + names.length).toNat]? := by
  rw [pyIndex, if_pos hneg, if_pos hin]

theorem trueLabelsRow_eq (names : List String) (row : List Int)
    (h : ∀ l ∈ row, l ≠ IGNORE → 0 ≤ l ∧ l < (names.length : Int)) :
    trueLabelsRow names row =
      some ((row.filter (fun l => l ≠ IGNORE)).map (fun l => names.getD l.toNat "")) := by
  rw [trueLabelsRow]
  apply pyMap_eq_map
  intro l hl
  rw [List.mem_filter] at hl
  have hne : l ≠ IGNORE := by simpa using hl.2
  obtain ⟨h0, hlt⟩ := h l hl.1 hne
  exact pyIndex_valid names l h0 hlt

theorem truePredictionsRow_eq (names : List String) (prow lrow : List Int)
    (h : ∀ r ∈ prow.zip lrow, r.2 ≠ IGNORE → 0 ≤ r.1 ∧ r.1 < (names.length : Int)) :
    truePredictionsRow names prow lrow =
      some (((prow.zip lrow).filter (fun r => r.2 ≠ IGNORE)).map
        (fun r => names.getD r.1.toNat "")) := by
  rw [truePredictionsRow]
  apply pyMap_eq_map
  intro r hr
  rw [List.mem_filter] at hr
  have hne : r.2 ≠ IGNORE := by simpa using hr.2
  obtain ⟨h0, hlt⟩ := h r hr.1 hne
  exact pyIndex_valid names r.1 h0 hlt

/-- Helper: equal-length rows keep the same number of positions after
filtering on the gold label. -/
theorem filter_zip_length (prow lrow : List Int) (h : prow.length = lrow.length) :
    ((prow.zip lrow).filter (fun r => r.2 ≠ IGNORE)).length =
      (lrow.filter (fun l => l ≠ IGNORE)).length := by
  induction prow generalizing lrow with
  | nil =>
    cases lrow with
    | nil => rfl
    | cons b t => cases h
  | cons a pt ih =>
    cases lrow with
    | nil => cases h
    | cons b lt =>
      have hlen : pt.length = lt.length := by simpa using h
      rw [List.zip_cons_cons, List.filter_cons, List.filter_cons]
      by_cases hb : b = IGNORE
      · rw [if_neg (by simp [hb]), if_neg (by simp [hb])]
        exact ih lt hlen
      · rw [if_pos (by simp [hb]), if_pos (by simp [hb])]
        simp only [List.length_cons]
        rw [ih lt hlen]

/-- Helper: mapping a function of the first components over a zip of lists of
equal or shorter first length is mapping over the first list. -/
theorem zip_map_fst {α β γ : Type} (f : α → γ) (l1 : List α) (l2 : List β)
    (h : l1.length ≤ l2.length) :
    (l1.zip l2).map (fun r => f r.1) = l1.map f := by
  calc (l1.zip l2).map (fun r => f r.1)
      = ((l1.zip l2).map Prod.fst).map f := (List.map_map f Prod.fst (l1.zip l2)).symm
    _ = l1.map f := by rw [List.map_fst_zip l1 l2 h]

/-! ### Claim theorems for the post-processing step -/

/-- C3: on equal-shaped batches whose surviving codes are valid label ids,
`postprocess` succeeds and returns, per row, the gold and predicted codes of
exactly the positions whose gold label is not `-100`, in order, mapped to
their string names; both outputs have one row per labels row and the two rows
at each index have equal length. -/
theorem postprocess_filters_and_names (names : List String)
    (preds labels : List (List Int))
    (hrows : preds.length = labels.length)
    (hshape : ∀ q ∈ preds.zip labels, (q : List Int × List Int).1.length = q.2.length)
    (hgold : ∀ row ∈ labels, ∀ l ∈ row, l ≠ IGNORE → 0 ≤ l ∧ l < (names.length : Int))
    (hpred : ∀ q ∈ preds.zip labels, ∀ r ∈ q.1.zip q.2, r.2 ≠ IGNORE →
      0 ≤ r.1 ∧ r.1 < (names.length : Int)) :
    ∃ tl tp, postprocess names preds labels = some (tl, tp) ∧
      tl = labels.map (fun row =>
        (row.filter (fun l => l ≠ IGNORE)).map (fun l => names.getD l.toNat "")) ∧
      tp = (preds.zip labels).map (fun q =>
        ((q.1.zip q.2).filter (fun r => r.2 ≠ IGNORE)).map
          (fun r => names.getD r.1.toNat "")) ∧
      tl.length = labels.length ∧ tp.length = labels.length ∧
      (∀ i : Nat, i < labels.length →
        (tl.getD i []).length = (tp.getD i []).length) := by
  have htl : pyMap (fun label => trueLabelsRow names label) labels =
      some (labels.map (fun row =>
        (row.filter (fun l => l ≠ IGNORE)).map (fun l => names.getD l.toNat ""))) :=
    pyMap_eq_map _ _ labels (fun row hrow => trueLabelsRow_eq names row (hgold row hrow))
  have htp : pyMap (fun q => truePredictionsRow names q.1 q.2) (preds.zip labels) =
      some ((preds.zip labels).map (fun q =>
        ((q.1.zip q.2).filter (fun r => r.2 ≠ IGNORE)).map
          (fun r => names.getD r.1.toNat ""))) :=
    pyMap_eq_map _ _ _ (fun q hq => truePredictionsRow_eq names q.1 q.2 (hpred q hq))
  refine ⟨labels.map (fun row =>
      (row.filter (fun l => l ≠ IGNORE)).map (fun l => names.getD l.toNat "")),
    (preds.zip labels).map (fun q =>
      ((q.1.zip q.2).filter (fun r => r.2 ≠ IGNORE)).map
        (fun r => names.getD r.1.toNat "")),
    ?_, rfl, rfl, ?_, ?_, ?_⟩
  · rw [postprocess, htl, htp]
  · simp
  · simp [List.length_zip, hrows]
  · intro i hi
    have hiz : i < (preds.zip labels).length := by
      rw [List.length_zip]
      omega
    have hip : i < preds.length := by omega
    rw [List.getD_eq_getElem?_getD (List.map _ labels) i [],
      List.getD_eq_getElem?_getD (List.map _ (preds.zip labels)) i [],
      List.getElem?_map, List.getElem?_map,
      List.getElem?_eq_getElem hi, List.getElem?_eq_getElem hiz]
    have hzi : (preds.zip labels)[i] = (preds[i], labels[i]) := List.getElem_zip
    rw [hzi]
    simp only [Option.map_some', Option.getD_some, List.length_map]
    have hmem : (preds[i], labels[i]) ∈ preds.zip labels := by
      rw [← hzi]
      exact List.getElem_mem hiz
    exact (filter_zip_length preds[i] labels[i] (hshape _ hmem)).symm

/-- C9: the decoding comprehensions inside `compute_metrics` and the
`postprocess` function compute the same pair on the same integer batches and
label-name table. -/
theorem postprocess_eq_compute_metrics_decode (names : List String)
    (predictions labels : List (List Int)) :
    postprocess names predictions labels =
      compute_metrics_decode names predictions labels := rfl

/-- C8: when no gold label is the ignore sentinel and all codes are valid,
`postprocess` drops nothing: it returns the input rows in content and order
with each integer code replaced by its string name. -/
theorem postprocess_no_ignore_roundtrip (names : List String)
    (preds labels : List (List Int))
    (hrows : preds.length = labels.length)
    (hshape : ∀ q ∈ preds.zip labels, (q : List Int × List Int).1.length = q.2.length)
    (hnoig : ∀ row ∈ labels, ∀ l ∈ row, l ≠ IGNORE)
    (hgold : ∀ row ∈ labels, ∀ l ∈ row, 0 ≤ l ∧ l < (names.length : Int))
    (hpredv : ∀ row ∈ preds, ∀ p ∈ row, 0 ≤ p ∧ p < (names.length : Int)) :
    postprocess names preds labels =
      some (labels.map (fun row => row.map (fun l => names.getD l.toNat "")),
            preds.map (fun row => row.map (fun p => names.getD p.toNat ""))) := by
  have hrowlab : ∀ row ∈ labels, trueLabelsRow names row =
      some (row.map (fun l => names.getD l.toNat "")) := by
    intro row hrow
    have hfil : row.filter (fun l => l ≠ IGNORE) = row :=
      List.filter_eq_self.mpr (fun a ha => by simp [hnoig row hrow a ha])
    rw [trueLabelsRow_eq names row (fun l hl _ => hgold row hrow l hl), hfil]
  have hrowpred : ∀ q ∈ preds.zip labels, truePredictionsRow names q.1 q.2 =
      some (q.1.map (fun p => names.getD p.toNat "")) := by
    intro q hq
    have hq1 : q.1 ∈ preds := (List.of_mem_zip hq).1
    have hq2 : q.2 ∈ labels := (List.of_mem_zip hq).2
    have hfil : (q.1.zip q.2).filter (fun r => r.2 ≠ IGNORE) = q.1.zip q.2 :=
      List.filter_eq_self.mpr (fun r hr => by
        have hr2 : r.2 ∈ q.2 := (List.of_mem_zip hr).2
        simp [hnoig q.2 hq2 r.2 hr2])
    have hval : ∀ r ∈ q.1.zip q.2, r.2 ≠ IGNORE →
        0 ≤ r.1 ∧ r.1 < (names.length : Int) := by
      intro r hr _
      exact hpredv q.1 hq1 r.1 (List.of_mem_zip hr).1
    rw [truePredictionsRow_eq names q.1 q.2 hval, hfil]
    rw [zip_map_fst (fun p => names.getD p.toNat "") q.1 q.2 (le_of_eq (hshape q hq))]
  have htl := pyMap_eq_map (fun label => trueLabelsRow names label)
    (fun row => row.map (fun l => names.getD l.toNat "")) labels hrowlab
  have htp := pyMap_eq_map (fun q => truePredictionsRow names q.1 q.2)
    (fun q => q.1.map (fun p => names.getD p.toNat "")) (preds.zip labels) hrowpred
  rw [postprocess, htl, htp]
  rw [zip_map_fst (fun row => row.map (fun p => names.getD p.toNat "")) preds labels
    (le_of_eq hrows)]

/-- C5 counterexample: `postprocess` on batches of mismatched shape (one
predictions row against two labels rows) returns a result instead of
signaling: the extra labels row is still decoded into `true_labels`, and
`true_predictions` is silently truncated by `zip`. -/
theorem postprocess_shape_mismatch_cex :
    postprocess label_names [[0]] [[0], [0]] = some ([["O"], ["O"]], [["O"]]) := rfl

/-- C5 amended: `postprocess` performs no shape check: independently of any
relation between the shapes of the two batches (only code validity at the
positions it reads), it returns a result, with one `true_labels` row per
labels row and `min` of the two row counts many `true_predictions` rows. -/
theorem postprocess_no_shape_check (names : List String)
    (preds labels : List (List Int))
    (hgold : ∀ row ∈ labels, ∀ l ∈ row, l ≠ IGNORE → 0 ≤ l ∧ l < (names.length : Int))
    (hpred : ∀ q ∈ preds.zip labels, ∀ r ∈ q.1.zip q.2, r.2 ≠ IGNORE →
      0 ≤ r.1 ∧ r.1 < (names.length : Int)) :
    ∃ tl tp, postprocess names preds labels = some (tl, tp) ∧
      tl.length = labels.length ∧
      tp.length = min preds.length labels.length := by
  have htl := pyMap_eq_map (fun label => trueLabelsRow names label)
    (fun row => (row.filter (fun l => l ≠ IGNORE)).map (fun l => names.getD l.toNat ""))
    labels (fun row hrow => trueLabelsRow_eq names row (hgold row hrow))
  have htp := pyMap_eq_map (fun q => truePredictionsRow names q.1 q.2)
    (fun q => ((q.1.zip q.2).filter (fun r => r.2 ≠ IGNORE)).map
      (fun r => names.getD r.1.toNat ""))
    (preds.zip labels) (fun q hq => truePredictionsRow_eq names q.1 q.2 (hpred q hq))
  refine ⟨labels.map (fun row =>
      (row.filter (fun l => l ≠ IGNORE)).map (fun l => names.getD l.toNat "")),
    (preds.zip labels).map (fun q =>
      ((q.1.zip q.2).filter (fun r => r.2 ≠ IGNORE)).map
        (fun r => names.getD r.1.toNat "")),
    ?_, ?_, ?_⟩
  · rw [postprocess, htl, htp]
  · simp
  · simp [List.length_zip]

/-- C7 counterexample: a surviving gold label code `-1`, which is outside the
label space, is not treated as an error: Python negative indexing silently
coerces it to the last name `I-MISC`. -/
theorem postprocess_negative_code_cex :
    postprocess label_names [[0]] [[-1]] = some ([["I-MISC"]], [["O"]]) := rfl

/-- C7 amended: a surviving code at or above the table length or below minus
the table length makes `postprocess` fail, but a surviving negative code
within `[-length, -1]` is silently coerced by Python negative indexing to the
name at `code + length`. -/
theorem postprocess_malformed_code_behavior :
    (∀ (names : List String) (preds labels : List (List Int)) (row : List Int) (l : Int),
      row ∈ labels → l ∈ row → l ≠ IGNORE →
      ((names.length : Int) ≤ l ∨ l + names.length < 0) →
      postprocess names preds labels = none) ∧
    (∀ (names : List String) (l : Int), l < 0 → 0 ≤ l + names.length →
      pyIndex names l = names[(l + names.length).toNat]?) := by
  constructor
  · intro names preds labels row l hrow hl hne hout
    have hrow_none : trueLabelsRow names row = none := by
      rw [trueLabelsRow]
      apply pyMap_eq_none _ _ l
      · rw [List.mem_filter]
        exact ⟨hl, by simp [hne]⟩
      · exact pyIndex_out_of_range names l hout
    have hall : pyMap (fun label => trueLabelsRow names label) labels = none :=
      pyMap_eq_none _ _ row hrow hrow_none
    rw [postprocess, hall]
  · exact pyIndex_negative_wraps

/-! ### Concrete witnesses for the theorems with hypotheses -/

theorem align_output_contract_witness :
    ∃ out, align_labels_with_tokens [3, 0, 7] [none, some 0, some 1, some 2, none] =
        some out ∧ out.length = 5 := by
  obtain ⟨⟨out, hout, hlen, -, -⟩, -⟩ := align_output_contract [3, 0, 7]
    [none, some 0, some 1, some 2, none] (by intro w hw; simp at hw ⊢; omega)
  exact ⟨out, hout, by simpa using hlen⟩

theorem align_run_of_split_word_witness :
    ∃ out, align_labels_with_tokens [3, 0, 7]
        ([none, some 0] ++ List.replicate 2 (some 2) ++ [none]) = some out ∧
      ∀ j : Nat, j < 2 → out[([none, some 0] : List (Option Nat)).length + j]? =
        some (if j = 0 then (7 : Int) else if (7 : Int) % 2 = 1 then 7 + 1 else 7) := by
  exact align_run_of_split_word [3, 0, 7] [none, some 0] [none] 2 2 7 (by decide)
    (by decide) (by decide) (by decide)
    (by intro v hv; simp at hv ⊢; omega)
    (by intro v hv; simp at hv)

theorem align_single_beginning_per_word_witness :
    ∃ out, align_labels_with_tokens [3, 0, 7]
        ([none] ++ List.replicate 2 (some 2) ++ [none]) = some out ∧
      out[([none] : List (Option Nat)).length]? = some ([3, 0, 7].getD 2 0) ∧
      ∀ j : Nat, 1 ≤ j → j < 2 →
        ∃ c : Int, out[([none] : List (Option Nat)).length + j]? = some c ∧ c % 2 = 0 := by
  exact align_single_beginning_per_word [3, 0, 7] [none] [none] 2 2 (by decide)
    (by decide) (by decide)
    (by intro v hv; simp at hv)
    (by intro v hv; simp at hv)

theorem align_locality_witness :
    (([7, 8] : List Int)[1]? = ([7, 8, -100] : List Int)[1]?) ∧
    (([7, -100, 7] : List Int)[2]? = some (([7] : List Int).getD 0 0)) := by
  constructor
  · exact align_locality.1 [7] [some 0, some 0] [some 0, some 0, none] [7, 8]
      [7, 8, -100] 1 rfl rfl (by decide) (by decide) rfl (Or.inr rfl)
  · exact align_locality.2 [7] [some 0, none, some 0] [7, -100, 7] 2 0 rfl
      (by decide) rfl (Or.inr (by decide))

theorem postprocess_filters_and_names_witness :
    postprocess label_names [[0, 3]] [[7, -100]] = some ([["B-MISC"]], [["O"]]) := by
  obtain ⟨tl, tp, hpp, htl, htp, -, -, -⟩ :=
    postprocess_filters_and_names label_names [[0, 3]] [[7, -100]] rfl
      (by decide) (by decide) (by decide)
  subst htl
  subst htp
  rw [hpp]
  rfl

theorem postprocess_no_ignore_roundtrip_witness :
    postprocess label_names [[0, 8]] [[3, 7]] =
      some ([["B-ORG", "B-MISC"]], [["O", "I-MISC"]]) := by
  have h := postprocess_no_ignore_roundtrip label_names [[0, 8]] [[3, 7]] rfl
    (by decide) (by decide) (by decide) (by decide)
  rw [h]
  rfl

theorem postprocess_no_shape_check_witness :
    ∃ tl tp, postprocess label_names [[0]] [[0], [0]] = some (tl, tp) ∧
      tl.length = 2 ∧ tp.length = 1 := by
  obtain ⟨tl, tp, hpp, hl, hp⟩ :=
    postprocess_no_shape_check label_names [[0]] [[0], [0]] (by decide) (by decide)
  exact ⟨tl, tp, hpp, by simpa using hl, by simpa using hp⟩

theorem postprocess_malformed_code_behavior_witness :
    postprocess label_names [[0]] [[9]] = none ∧
    pyIndex label_names (-2) = label_names[((-2 : Int) + (label_names.length : Int)).toNat]? := by
  constructor
  · exact postprocess_malformed_code_behavior.1 label_names [[0]] [[9]] [9] 9
      (by decide) (by decide) (by decide) (by decide)
  · exact postprocess_malformed_code_behavior.2 label_names (-2) (by decide) (by decide)

end TokenClassification
